import Mathlib

/-!
Verification of the YT_Downloader repository's owned logic against its
natural-language specification.

The repository has three Python entry points sharing near-duplicate logic:
`youtube_downloader.py` (basic console), `enhanced.py` (console with trimming),
and `streamlit_youtube_app.py` (web dashboard).  This file gives a shallow
embedding of the pieces the spec covers — time parsing (`parse_time`),
duration formatting (`format_duration`), the format catalog
(`get_available_formats`), trim validation, selection resolution
(`get_format_from_selection`) and filename sanitization — and proves or
refutes the spec's claims about them.

Python strings are modelled as `List Char` (`PyStr`); Python `int` values as
Lean `Int` (arbitrary precision in both); dictionary fields that may be
absent or `None` as `Option`; exceptions that the code catches and converts
to `None`/fallbacks as `Option`/fallback values, so every embedded function
is total.
-/

namespace YT

/-- Python strings are modelled as lists of characters. -/
abbrev PyStr := List Char

/-- Coerce a Lean string literal into the `PyStr` model. -/
def pys (s : String) : PyStr := s.toList

/-- The characters removed by Python `str.strip()` / `str.rstrip()`
(ASCII whitespace; the embedding restricts Python's unicode whitespace set
to the ASCII range, which is all that any claim exercises). -/
def isPySpace (c : Char) : Bool :=
  c = ' ' || c = '\t' || c = '\n' || c = '\r' || c = '\x0b' || c = '\x0c'

/-- Model of Python `str.strip()`: drop leading and trailing whitespace. -/
def pyStrip (s : PyStr) : PyStr :=
  ((s.dropWhile isPySpace).reverse.dropWhile isPySpace).reverse

/-- Model of Python `str.rstrip()`: drop trailing whitespace only. -/
def pyRstrip (s : PyStr) : PyStr :=
  (s.reverse.dropWhile isPySpace).reverse

/-- Model of Python `str.split(sep)` for a one-character separator:
`"a:b".split(':') = ["a","b"]`, `":".split(':') = ["",""]`,
`"".split(':') = [""]`. -/
def splitOnC (sep : Char) : PyStr → List PyStr
  | [] => [[]]
  | c :: rest =>
    if c = sep then [] :: splitOnC sep rest
    else
      match splitOnC sep rest with
      | [] => [[c]]
      | g :: gs => (c :: g) :: gs

/-- The decimal digit character for `n % 10`; models Python's rendering of a
single decimal digit. -/
def digitChar : Nat → Char
  | 0 => '0' | 1 => '1' | 2 => '2' | 3 => '3' | 4 => '4'
  | 5 => '5' | 6 => '6' | 7 => '7' | 8 => '8' | _ => '9'

/-- Fuel-indexed big-endian decimal rendering (structural recursion so that
concrete instances evaluate inside the kernel). -/
def natToCharsAux : Nat → Nat → List Char
  | 0, _ => []
  | fuel + 1, n =>
    if n < 10 then [digitChar n]
    else natToCharsAux fuel (n / 10) ++ [digitChar (n % 10)]

/-- Model of Python `str(n)` for a non-negative integer: big-endian decimal
digits, no sign, no padding. -/
def natToChars (n : Nat) : List Char := natToCharsAux (n + 1) n

/-- Model of Python `str(n)` for an arbitrary integer. -/
def intToChars (n : Int) : List Char :=
  if n < 0 then '-' :: natToChars n.natAbs else natToChars n.natAbs

/-- Numeric value of a big-endian digit string (the mathematical inverse of
`natToChars`, used to state round-trip facts). -/
def charsToNat (ds : List Char) : Nat :=
  ds.foldl (fun a c => a * 10 + (c.toNat - 48)) 0

/-- Model of the `f"{n:02d}"` format specifier used by `format_duration`:
decimal rendering left-padded with `'0'` to width 2. -/
def fmt02 (n : Nat) : List Char :=
  if n < 10 then '0' :: natToChars n else natToChars n

/-- Body of a Python integer literal after the first digit: digits with
single internal underscores allowed (`int("1_0") = 10`, `int("1__0")` and
`int("1_")` raise).  Returns the digits with underscores removed. -/
def digitsBody : List Char → Option (List Char)
  | [] => some []
  | [c] => if c = '_' then none else
      if c.isDigit then some [c] else none
  | c :: d :: rest =>
    if c = '_' then
      if d.isDigit then (digitsBody rest).map (fun ds => d :: ds) else none
    else if c.isDigit then (digitsBody (d :: rest)).map (fun ds => c :: ds)
    else none

/-- An unsigned Python integer literal: a leading digit followed by
`digitsBody`.  Yields its numeric value. -/
def pyIntDigits : List Char → Option Nat
  | [] => none
  | c :: rest =>
    if c.isDigit then (digitsBody rest).map (fun ds => charsToNat (c :: ds))
    else none

/-- A Python integer literal with its optional sign (applied to the
already-stripped text). -/
def pyIntSigned : List Char → Option Int
  | [] => none
  | c :: rest =>
    if c = '+' then (pyIntDigits rest).map (fun (n : Nat) => (n : Int))
    else if c = '-' then (pyIntDigits rest).map (fun (n : Nat) => -(n : Int))
    else (pyIntDigits (c :: rest)).map (fun (n : Nat) => (n : Int))

/-- Model of Python `int(s)` on a string: strips whitespace, accepts one
optional sign, then a decimal literal; any other input raises `ValueError`,
modelled as `none`. -/
def pythonInt (s : PyStr) : Option Int :=
  pyIntSigned (pyStrip s)

/-! ## Time parsing and duration formatting

`parse_time` embeds `YouTubeDownloader.parse_time` (`enhanced.py` lines
19-47); `StreamlitYouTubeDownloader.parse_time`
(`streamlit_youtube_app.py` lines 41-68) is character-for-character
identical.  `format_duration` embeds `YouTubeDownloader.format_duration`
(`enhanced.py` lines 49-58). -/

/-- Embedding of `parse_time`: empty/whitespace-only input yields `none`;
with one colon the input is `MM:SS`; with two colons `HH:MM:SS`; with no
colon it is a bare `int()` literal; every `ValueError` path yields `none`. -/
def parse_time (s : PyStr) : Option Int :=
  if pyStrip s = [] then none
  else if ':' ∈ pyStrip s then
    match splitOnC ':' (pyStrip s) with
    | [a, b] =>
      match pythonInt a, pythonInt b with
      | some m, some n => some (m * 60 + n)
      | _, _ => none
    | [a, b, c] =>
      match pythonInt a, pythonInt b, pythonInt c with
      | some h, some m, some n => some (h * 3600 + m * 60 + n)
      | _, _, _ => none
    | _ => none
  else pythonInt (pyStrip s)

/-- Embedding of `format_duration` (`enhanced.py`): renders `HH:MM:SS`
when `seconds // 3600 > 0` and `MM:SS` otherwise, each field through
`f"{..:02d}"`.  The claim quantifies over `s >= 0`, so the argument is a
`Nat` (Python `//` and `%` agree with `Nat` division there). -/
def format_duration (s : Nat) : PyStr :=
  let hours := s / 3600
  let minutes := (s % 3600) / 60
  let secs := s % 60
  if hours > 0 then fmt02 hours ++ ':' :: (fmt02 minutes ++ ':' :: fmt02 secs)
  else fmt02 minutes ++ ':' :: fmt02 secs

/-! ## Trim validation (streamlit download-button block)

Embeds `run_streamlit_app` lines 546-557: an `elif` chain guarded by Python
truthiness (`start_time and start_time >= duration`, ...), where a parsed
time of `0` is falsy exactly like `None`. -/

/-- Python truthiness of an optional integer: `None` and `0` are falsy. -/
def pyTruthy (o : Option Int) : Bool :=
  match o with
  | none => false
  | some v => v != 0

/-- The distinguishable trim-validation failures; the code reports them as
the distinct messages `Invalid start time` / `Invalid end time` /
`Invalid time range` (spec names: `StartBeyondDuration`,
`EndBeyondDuration`, `EndNotAfterStart`). -/
inductive TrimError
  | StartBeyondDuration
  | EndBeyondDuration
  | EndNotAfterStart
deriving DecidableEq, Repr

/-- Embedding of the trim-validation `elif` chain in the streamlit download
handler (lines 546-557). -/
def validate_trim (s e : Option Int) (dur : Int) : Option TrimError :=
  if pyTruthy s = true ∧ s.getD 0 ≥ dur then some .StartBeyondDuration
  else if pyTruthy e = true ∧ e.getD 0 > dur then some .EndBeyondDuration
  else if pyTruthy s = true ∧ pyTruthy e = true ∧ e.getD 0 ≤ s.getD 0 then
    some .EndNotAfterStart
  else none

/-- Python `x or d` on an optional integer (used by the trim preview):
`None` and `0` both fall through to the default. -/
def pyOrI (o : Option Int) (d : Int) : Int :=
  match o with
  | none => d
  | some v => if v = 0 then d else v

/-- Embedding of the preview computation
`trim_duration = (end_time or duration) - (start_time or 0)`
(`streamlit_youtube_app.py` line 518, `enhanced.py` line 103). -/
def preview_duration (s e : Option Int) (dur : Int) : Int :=
  pyOrI e dur - pyOrI s 0

/-- Embedding of the trimming trigger in `download_video`
(`streamlit_youtube_app.py` line 331): FFmpeg trim arguments are built iff
`start_time is not None or end_time is not None` — an `is not None` test,
not a truthiness test. -/
def trim_requested (s e : Option Int) : Bool :=
  s.isSome || e.isSome

/-- Embedding of the check chain of one pass of `get_trim_settings`
(`enhanced.py` lines 73-97) over already-parsed bounds: a present start is
range-checked unconditionally (`start_time >= duration`, line 78, aborts
the pass before the end checks); a present end is range-checked
unconditionally (`end_time > duration`, line 90); but the cross check at
line 93 is `start_time and end_time <= start_time`, guarded by truthiness
of the start only — a present zero end is still compared. -/
def validate_trim_enhanced (s e : Option Int) (dur : Int) : Option TrimError :=
  match s, e with
  | some sv, some ev =>
    if sv ≥ dur then some .StartBeyondDuration
    else if ev > dur then some .EndBeyondDuration
    else if pyTruthy (some sv) = true ∧ ev ≤ sv then some .EndNotAfterStart
    else none
  | some sv, none =>
    if sv ≥ dur then some .StartBeyondDuration else none
  | none, some ev =>
    if ev > dur then some .EndBeyondDuration else none
  | none, none => none

/-- Embedding of the accepted-pair return of `get_trim_settings`
(`enhanced.py` lines 99-116): a validated pair is returned as entered only
when `start_time or end_time` is truthy; otherwise the function returns
`(None, None)` — so an accepted `(0, 0)` degenerates to "no trim". -/
def get_trim_settings_result (s e : Option Int) : Option Int × Option Int :=
  if pyTruthy s || pyTruthy e then (s, e) else (none, none)

/-! ## Filename sanitization

All three entry points derive the filename component from the title with
the same two lines
(`"".join(c for c in title if c.isalnum() or c in (' ', '-', '_')).rstrip()`
then `[:50]`): `youtube_downloader.py` 92-93, `enhanced.py` 224-225,
`streamlit_youtube_app.py` 255-256.  `c.isalnum()` is modelled by
`Char.isAlphanum` (the ASCII restriction of Python's unicode-aware test,
which is all the spec's sanitization rule describes). -/

/-- The character filter of the sanitization comprehension. -/
def keepChar (c : Char) : Bool :=
  c.isAlphanum || c = ' ' || c = '-' || c = '_'

/-- Sanitization as written in `youtube_downloader.py` lines 92-93. -/
def sanitize_title_basic (t : PyStr) : PyStr :=
  (pyRstrip (t.filter keepChar)).take 50

/-- Sanitization as written in `enhanced.py` lines 224-225. -/
def sanitize_title_enhanced (t : PyStr) : PyStr :=
  (pyRstrip (t.filter keepChar)).take 50

/-- Sanitization as written in `streamlit_youtube_app.py` lines 255-256
(the later timestamp/trim suffixes are appended after this component). -/
def sanitize_title_streamlit (t : PyStr) : PyStr :=
  (pyRstrip (t.filter keepChar)).take 50

/-! ## Format catalog

`get_available_formats` exists in two variants:
* `streamlit_youtube_app.py` lines 130-175 — filter
  `f.get('vcodec') and f.get('vcodec') != 'none'`, entries carrying
  bitrate/audio fields, sort key `(height, tbr or 0, vbr or 0)` with
  `reverse=True`;
* `enhanced.py` lines 133-157 and `youtube_downloader.py` lines 33-57
  (identical code) — filter
  `f.get('vcodec') != 'none' and f.get('acodec') != 'none'`, sort key
  `height` with `reverse=True`.

Both de-duplicate with `seen_resolutions`: a descriptor is admitted only
when its height is truthy and unseen, i.e. first-seen-wins per height.
Python's `list.sort` is a stable sort; it is embedded as the (unique)
stable descending insertion sort `pySort`.  Numeric metadata fields are
modelled as `Option Int` (`none` = absent or `None`). -/

/-- A raw stream descriptor from the extractor (`info['formats']` element),
restricted to the keys the repository reads. -/
structure StreamDescriptor where
  format_id : PyStr
  height : Option Nat
  width : Option Nat
  ext : Option PyStr
  filesize : Option Int
  fps : Option Int
  vcodec : Option PyStr
  acodec : Option PyStr
  tbr : Option Int
  vbr : Option Int
  abr : Option Int
  format_note : Option PyStr
  quality : Option Int
deriving DecidableEq, Repr

/-- Eligibility filter of the streamlit variant:
`f.get('vcodec') and f.get('vcodec') != 'none'` (truthiness: absent and
empty strings are falsy). -/
def eligS (f : StreamDescriptor) : Bool :=
  match f.vcodec with
  | none => false
  | some v => v != [] && v != pys "none"

/-- Eligibility filter of the enhanced/basic variant:
`f.get('vcodec') != 'none' and f.get('acodec') != 'none'` — note an absent
codec (`None`) passes both comparisons. -/
def eligE (f : StreamDescriptor) : Bool :=
  f.vcodec != some (pys "none") && f.acodec != some (pys "none")

/-- `has_audio = f.get('acodec') and f.get('acodec') != 'none'`
(streamlit variant), reduced to its truth value. -/
def hasAudioOf (f : StreamDescriptor) : Bool :=
  match f.acodec with
  | none => false
  | some a => a != [] && a != pys "none"

/-- The resolution label `f"{height}p"`. -/
def resLabel (h : Nat) : PyStr := natToChars h ++ ['p']

/-- A catalog entry of the streamlit variant (dict built at
`streamlit_youtube_app.py` lines 147-164). -/
structure CatalogEntryS where
  format_id : PyStr
  resolution : PyStr
  height : Nat
  width : Option Nat
  ext : PyStr
  filesize : Option Int
  fps : Option Int
  vcodec : PyStr
  acodec : PyStr
  tbr : Option Int
  vbr : Option Int
  abr : Option Int
  has_audio : Bool
  format_note : PyStr
  quality : Option Int
deriving DecidableEq, Repr

/-- A catalog entry of the enhanced/basic variant (dict built at
`enhanced.py` lines 143-152 / `youtube_downloader.py` lines 43-52). -/
structure CatalogEntryE where
  format_id : PyStr
  resolution : PyStr
  height : Nat
  ext : PyStr
  filesize : Option Int
  fps : Option Int
  vcodec : PyStr
  acodec : PyStr
deriving DecidableEq, Repr

/-- Build the streamlit entry for an admitted descriptor of height `h`. -/
def mkEntryS (f : StreamDescriptor) (h : Nat) : CatalogEntryS where
  format_id := f.format_id
  resolution := resLabel h
  height := h
  width := f.width
  ext := f.ext.getD (pys "mp4")
  filesize := f.filesize
  fps := f.fps
  vcodec := f.vcodec.getD (pys "Unknown")
  acodec := f.acodec.getD (pys "Unknown")
  tbr := f.tbr
  vbr := f.vbr
  abr := f.abr
  has_audio := hasAudioOf f
  format_note := (f.format_note).getD []
  quality := f.quality

/-- Build the enhanced/basic entry for an admitted descriptor. -/
def mkEntryE (f : StreamDescriptor) (h : Nat) : CatalogEntryE where
  format_id := f.format_id
  resolution := resLabel h
  height := h
  ext := f.ext.getD (pys "mp4")
  filesize := f.filesize
  fps := f.fps
  vcodec := f.vcodec.getD (pys "Unknown")
  acodec := f.acodec.getD (pys "Unknown")

/-- The admission loop of the streamlit variant: eligible descriptor,
truthy height, height not yet seen. -/
def collectS : List StreamDescriptor → List Nat → List CatalogEntryS
  | [], _ => []
  | f :: rest, seen =>
    if eligS f then
      match f.height with
      | some h =>
        if h ≠ 0 ∧ h ∉ seen then mkEntryS f h :: collectS rest (h :: seen)
        else collectS rest seen
      | none => collectS rest seen
    else collectS rest seen

/-- The admission loop of the enhanced/basic variant. -/
def collectE : List StreamDescriptor → List Nat → List CatalogEntryE
  | [], _ => []
  | f :: rest, seen =>
    if eligE f then
      match f.height with
      | some h =>
        if h ≠ 0 ∧ h ∉ seen then mkEntryE f h :: collectE rest (h :: seen)
        else collectE rest seen
      | none => collectE rest seen
    else collectE rest seen

/-- Stable insertion for a strict Bool comparison: the new element, which
precedes the list elements in the original order, passes over `y` exactly
while it is strictly below `y`, so ties keep original order — the
behaviour of Python's stable `list.sort` in descending mode. -/
def pyInsert (lt : α → α → Bool) (x : α) : List α → List α
  | [] => [x]
  | y :: ys => if lt x y then y :: pyInsert lt x ys else x :: y :: ys

/-- Stable descending sort (model of `list.sort(key=..., reverse=True)`). -/
def pySort (lt : α → α → Bool) : List α → List α
  | [] => []
  | x :: xs => pyInsert lt x (pySort lt xs)

/-- `x['tbr'] or 0` / `x['vbr'] or 0` in the sort key. -/
def orZero (o : Option Int) : Int := o.getD 0

/-- Strict "below" for the streamlit sort key
`(x['height'], x['tbr'] or 0, x['vbr'] or 0)` (lexicographic). -/
def ltS (a b : CatalogEntryS) : Bool :=
  a.height < b.height ||
    (a.height == b.height &&
      (orZero a.tbr < orZero b.tbr ||
        (orZero a.tbr == orZero b.tbr && orZero a.vbr < orZero b.vbr)))

/-- Strict "below" for the enhanced/basic sort key `x['height']`. -/
def ltE (a b : CatalogEntryE) : Bool :=
  a.height < b.height

/-- Embedding of `get_available_formats` (streamlit variant). -/
def buildS (fs : List StreamDescriptor) : List CatalogEntryS :=
  pySort ltS (collectS fs [])

/-- Embedding of `get_available_formats` (enhanced/basic variant). -/
def buildE (fs : List StreamDescriptor) : List CatalogEntryE :=
  pySort ltE (collectE fs [])

/-! ## Selection resolution

Embeds `get_format_from_selection` (`streamlit_youtube_app.py` lines
216-250).  The `try`/`except (ValueError, IndexError)` around the token
loop is modelled by the `Option`-valued `pythonInt`; every failure path
lands on the final `return "best[height<=?1080]/best"`. -/

/-- The default best-quality selector expression returned both for the
Best Quality selection and by the fallback path. -/
def selBest : PyStr := pys "best[height<=?1080]/best"

/-- Python `max(..., key=lambda x: (x['has_audio'], x['tbr'] or 0,
x['vbr'] or 0))`: strict "greater" on that key (Bool `True > False`). -/
def keyGtS (a b : CatalogEntryS) : Bool :=
  (a.has_audio && !b.has_audio) ||
    (a.has_audio == b.has_audio &&
      (orZero a.tbr > orZero b.tbr ||
        (orZero a.tbr == orZero b.tbr && orZero a.vbr > orZero b.vbr)))

/-- Python `max` over a nonempty list: keeps the earliest maximum. -/
def pyMax (gt : α → α → Bool) (x : α) (xs : List α) : α :=
  xs.foldl (fun best y => if gt y best then y else best) x

/-- The first token that `endswith('p')` among `selection.split(' ')`
(the loop `break`s after the first such token whatever happens). -/
def findPTok (parts : List PyStr) : Option PyStr :=
  parts.find? (fun p => p.getLast? == some 'p')

/-- Embedding of `get_format_from_selection`. -/
def get_format_from_selection (sel : PyStr) (formats : List CatalogEntryS) :
    PyStr :=
  if (pys "🎯 Best Quality").isPrefixOf sel then selBest
  else if (pys "🎵 Audio Only").isPrefixOf sel then pys "bestaudio/best"
  else
    match findPTok (splitOnC ' ' sel) with
    | none => selBest
    | some part =>
      match pythonInt part.dropLast with
      | none => selBest
      | some t =>
        match formats.filter (fun f => ((f.height : Int) == t)) with
        | [] => selBest
        | m :: ms =>
          let best := pyMax keyGtS m ms
          if best.has_audio = false then
            pys "best[height<=" ++ intToChars t ++ pys "]/best"
          else best.format_id

/-! ## Concrete stream descriptors used as test data -/

/-- A 1080p video-only descriptor (`acodec` is the `"none"` sentinel) with
total bitrate 500. -/
def dVideoOnly1080 : StreamDescriptor where
  format_id := pys "f1"
  height := some 1080
  width := some 1920
  ext := some (pys "mp4")
  filesize := some 1000000
  fps := some 30
  vcodec := some (pys "avc1")
  acodec := some (pys "none")
  tbr := some 500
  vbr := some 500
  abr := none
  format_note := some (pys "1080p")
  quality := some 5

/-- A 1080p combined (audio-bearing) descriptor with total bitrate 300. -/
def dCombined1080 : StreamDescriptor where
  format_id := pys "f2"
  height := some 1080
  width := some 1920
  ext := some (pys "mp4")
  filesize := some 800000
  fps := some 30
  vcodec := some (pys "avc1")
  acodec := some (pys "mp4a")
  tbr := some 300
  vbr := some 250
  abr := some 50
  format_note := some (pys "1080p")
  quality := some 5

/-- A 720p descriptor whose `vcodec` key is absent (`None`) while an audio
codec is declared. -/
def dNoVcodec720 : StreamDescriptor where
  format_id := pys "f9"
  height := some 720
  width := some 1280
  ext := some (pys "mp4")
  filesize := some 500000
  fps := some 30
  vcodec := none
  acodec := some (pys "mp4a")
  tbr := some 200
  vbr := none
  abr := some 50
  format_note := some (pys "720p")
  quality := some 4

/-! ## Lemmas: decimal digits -/

theorem digitChar_isDigit (n : Nat) : (digitChar n).isDigit = true := by
  rcases n with _ | _ | _ | _ | _ | _ | _ | _ | _ | n <;> rfl

theorem digitChar_val (n : Nat) (h : n < 10) : (digitChar n).toNat - 48 = n := by
  interval_cases n <;> rfl

theorem natToCharsAux_fuel (fuel fuel' n : Nat) (h : n < fuel) (h' : n < fuel') :
    natToCharsAux fuel n = natToCharsAux fuel' n := by
  induction fuel using Nat.strong_induction_on generalizing fuel' n with
  | _ fuel ih =>
    match fuel, fuel' with
    | f + 1, f' + 1 =>
      simp only [natToCharsAux]
      split
      · rfl
      · rename_i hn
        have h10 : 10 ≤ n := Nat.le_of_not_lt hn
        have hd : n / 10 < n := Nat.div_lt_self (by omega) (by omega)
        rw [ih f (by omega) f' (n / 10) (by omega) (by omega)]

theorem natToChars_eq (n : Nat) :
    natToChars n =
      if n < 10 then [digitChar n]
      else natToChars (n / 10) ++ [digitChar (n % 10)] := by
  show natToCharsAux (n + 1) n = _
  simp only [natToCharsAux]
  split
  · rfl
  · rename_i hn
    have h10 : 10 ≤ n := Nat.le_of_not_lt hn
    have hd : n / 10 < n := Nat.div_lt_self (by omega) (by omega)
    rw [natToCharsAux_fuel n (n / 10 + 1) (n / 10) (by omega) (by omega)]
    rfl

theorem natToChars_ne_nil (n : Nat) : natToChars n ≠ [] := by
  rw [natToChars_eq]
  split
  · simp
  · simp

theorem natToChars_digits (n : Nat) :
    ∀ c ∈ natToChars n, c.isDigit = true := by
  induction n using Nat.strong_induction_on with
  | _ n ih =>
    rw [natToChars_eq]
    split
    · intro c hc
      rw [List.mem_singleton] at hc
      subst hc
      exact digitChar_isDigit n
    · rename_i hn
      intro c hc
      rcases List.mem_append.mp hc with h | h
      · exact ih (n / 10) (Nat.div_lt_self (by omega) (by omega)) c h
      · rw [List.mem_singleton] at h
        subst h
        exact digitChar_isDigit _

theorem charsToNat_snoc (xs : List Char) (c : Char) :
    charsToNat (xs ++ [c]) = 10 * charsToNat xs + (c.toNat - 48) := by
  unfold charsToNat
  rw [List.foldl_append]
  simp [Nat.mul_comm]

theorem charsToNat_natToChars (n : Nat) : charsToNat (natToChars n) = n := by
  induction n using Nat.strong_induction_on with
  | _ n ih =>
    rw [natToChars_eq]
    split
    · rename_i h
      show 0 * 10 + ((digitChar n).toNat - 48) = n
      rw [digitChar_val n h]
      omega
    · rename_i h
      rw [charsToNat_snoc, ih (n / 10) (Nat.div_lt_self (by omega) (by omega)),
        digitChar_val (n % 10) (Nat.mod_lt _ (by omega))]
      omega

/-- A decimal digit is none of the special characters the parsers branch
on, and is not whitespace. -/
theorem digit_not_special {c : Char} (h : c.isDigit = true) :
    c ≠ ':' ∧ c ≠ '-' ∧ c ≠ '+' ∧ c ≠ '_' ∧ c ≠ 'p' ∧ isPySpace c = false := by
  refine ⟨?_, ?_, ?_, ?_, ?_, ?_⟩
  · rintro rfl; simp [Char.isDigit] at h
  · rintro rfl; simp [Char.isDigit] at h
  · rintro rfl; simp [Char.isDigit] at h
  · rintro rfl; simp [Char.isDigit] at h
  · rintro rfl; simp [Char.isDigit] at h
  · rcases h' : isPySpace c with _ | _
    · rfl
    · exfalso
      simp only [isPySpace, Bool.or_eq_true, decide_eq_true_eq] at h'
      rcases h' with ((((rfl | rfl) | rfl) | rfl) | rfl) | rfl <;>
        simp [Char.isDigit] at h

/-! ## Lemmas: stripping -/

theorem dropWhile_head_false {p : Char → Bool} {l t : List Char} {c : Char}
    (h : l.dropWhile p = c :: t) : p c = false := by
  induction l with
  | nil => simp at h
  | cons a l ih =>
    rw [List.dropWhile_cons] at h
    split at h
    · exact ih h
    · rename_i ha
      cases h
      simpa using ha

theorem dropWhile_eq_self_of_head {p : Char → Bool} {c : Char} {l : List Char}
    (h : p c = false) : (c :: l).dropWhile p = c :: l := by
  rw [List.dropWhile_cons, h]
  simp

theorem pyStrip_no_space {l : PyStr} (h : ∀ c ∈ l, isPySpace c = false) :
    pyStrip l = l := by
  have hdw : ∀ m : PyStr, (∀ c ∈ m, isPySpace c = false) →
      m.dropWhile isPySpace = m := by
    intro m hm
    cases m with
    | nil => rfl
    | cons a t => exact dropWhile_eq_self_of_head (hm a (by simp))
  unfold pyStrip
  rw [hdw l h, hdw l.reverse (by intro c hc; exact h c (List.mem_reverse.mp hc)),
    List.reverse_reverse]

theorem dropWhile_dropWhile (p : Char → Bool) (m : List Char) :
    (m.dropWhile p).dropWhile p = m.dropWhile p := by
  cases h : m.dropWhile p with
  | nil => rfl
  | cons c t => exact dropWhile_eq_self_of_head (dropWhile_head_false h)

theorem mem_of_dropWhile {p : Char → Bool} {c : Char} {m : List Char}
    (h : c ∈ m.dropWhile p) : c ∈ m := by
  have hm := List.takeWhile_append_dropWhile p m
  rw [← hm]
  exact List.mem_append_right _ h

theorem pyStrip_idem (l : PyStr) : pyStrip (pyStrip l) = pyStrip l := by
  cases hr : pyStrip l with
  | nil => rfl
  | cons c t =>
    have hv : (l.dropWhile isPySpace).reverse.dropWhile isPySpace =
        (c :: t).reverse := by
      rw [← List.reverse_inj, List.reverse_reverse]
      exact hr
    have hpc : isPySpace c = false := by
      have hur := List.takeWhile_append_dropWhile isPySpace
        (l.dropWhile isPySpace).reverse
      rw [hv] at hur
      have hur2 := congrArg List.reverse hur
      rw [List.reverse_append, List.reverse_reverse, List.reverse_reverse]
        at hur2
      exact dropWhile_head_false hur2.symm
    show pyStrip (c :: t) = c :: t
    unfold pyStrip
    rw [dropWhile_eq_self_of_head hpc, ← hv, dropWhile_dropWhile, hv,
      List.reverse_reverse]

theorem mem_pyStrip {c : Char} {l : PyStr} (h : c ∈ pyStrip l) : c ∈ l := by
  unfold pyStrip at h
  rw [List.mem_reverse] at h
  have h2 := mem_of_dropWhile h
  rw [List.mem_reverse] at h2
  exact mem_of_dropWhile h2

theorem count_pyStrip (sep : Char) (l : PyStr) (hsep : isPySpace sep = false) :
    (pyStrip l).count sep = l.count sep := by
  have hdw : ∀ m : PyStr, (m.dropWhile isPySpace).count sep = m.count sep := by
    intro m
    conv_rhs => rw [← List.takeWhile_append_dropWhile isPySpace m]
    rw [List.count_append]
    have : (m.takeWhile isPySpace).count sep = 0 := by
      rw [List.count_eq_zero]
      intro hmem
      have := List.mem_takeWhile_imp hmem
      rw [hsep] at this
      exact Bool.noConfusion this
    omega
  unfold pyStrip
  rw [List.count_reverse, hdw, List.count_reverse, hdw]

/-! ## Lemmas: splitting -/

theorem splitOnC_ne_nil (sep : Char) (l : PyStr) : splitOnC sep l ≠ [] := by
  induction l with
  | nil => simp [splitOnC]
  | cons c rest ih =>
    rw [splitOnC]
    split
    · simp
    · cases h : splitOnC sep rest with
      | nil => simp
      | cons g gs => simp

theorem splitOnC_no_sep {sep : Char} {l : PyStr} (h : sep ∉ l) :
    splitOnC sep l = [l] := by
  induction l with
  | nil => rfl
  | cons c rest ih =>
    rw [splitOnC]
    have hc : ¬c = sep := by
      intro hc; exact h (by simp [hc])
    rw [if_neg hc, ih (by intro hm; exact h (by simp [hm]))]

theorem splitOnC_append {sep : Char} {a b : PyStr} (ha : sep ∉ a) :
    splitOnC sep (a ++ sep :: b) = a :: splitOnC sep b := by
  induction a with
  | nil => simp [splitOnC]
  | cons c rest ih =>
    have hc : ¬c = sep := by
      intro hc; exact ha (by simp [hc])
    rw [List.cons_append, splitOnC, if_neg hc,
      ih (by intro hm; exact ha (by simp [hm]))]

theorem splitOnC_length (sep : Char) (l : PyStr) :
    (splitOnC sep l).length = l.count sep + 1 := by
  induction l with
  | nil => rfl
  | cons c rest ih =>
    rw [splitOnC]
    split
    · rename_i hc
      simp [List.count_cons, hc, ih]
    · rename_i hc
      cases h : splitOnC sep rest with
      | nil => exact absurd h (splitOnC_ne_nil sep rest)
      | cons g gs =>
        rw [h] at ih
        simp only [List.length_cons] at ih ⊢
        have : (c == sep) = false := by simp [hc]
        simp [List.count_cons, this, ih]

/-! ## Lemmas: Python int parsing -/

theorem digitsBody_digits {ds : List Char} (h : ∀ c ∈ ds, c.isDigit = true) :
    digitsBody ds = some ds := by
  induction ds with
  | nil => rfl
  | cons c rest ih =>
    have hc : c.isDigit = true := h c (by simp)
    have hcu : ¬c = '_' := (digit_not_special hc).2.2.2.1
    cases rest with
    | nil =>
      rw [digitsBody, if_neg hcu, if_pos hc]
    | cons d rest' =>
      rw [digitsBody, if_neg hcu, if_pos hc,
        ih (fun e he => h e (by simp [List.mem_cons.mp he]))]
      rfl

theorem pyIntDigits_digits {c : Char} {rest : List Char}
    (h : ∀ d ∈ c :: rest, d.isDigit = true) :
    pyIntDigits (c :: rest) = some (charsToNat (c :: rest)) := by
  rw [pyIntDigits, if_pos (h c (by simp)),
    digitsBody_digits (fun d hd => h d (by simp [hd]))]
  rfl

theorem pythonInt_digits {ds : List Char} (hne : ds ≠ [])
    (h : ∀ c ∈ ds, c.isDigit = true) :
    pythonInt ds = some ((charsToNat ds : Nat) : Int) := by
  have hstrip : pyStrip ds = ds :=
    pyStrip_no_space (fun c hc => (digit_not_special (h c hc)).2.2.2.2.2)
  cases ds with
  | nil => exact absurd rfl hne
  | cons c rest =>
    have hc := h c (by simp)
    rw [pythonInt, hstrip, pyIntSigned]
    rw [if_neg (digit_not_special hc).2.2.1, if_neg (digit_not_special hc).2.1,
      pyIntDigits_digits h]
    rfl

theorem charsToNat_cons_zero (ds : List Char) :
    charsToNat ('0' :: ds) = charsToNat ds := by
  have h0 : (0 : Nat) * 10 + ('0'.toNat - 48) = 0 := by decide
  show List.foldl _ (0 * 10 + ('0'.toNat - 48)) ds = List.foldl _ 0 ds
  rw [h0]

theorem fmt02_digits (n : Nat) : ∀ c ∈ fmt02 n, c.isDigit = true := by
  intro c hc
  rw [fmt02] at hc
  split at hc
  · rcases List.mem_cons.mp hc with rfl | h
    · rfl
    · exact natToChars_digits n c h
  · exact natToChars_digits n c hc

theorem fmt02_ne_nil (n : Nat) : fmt02 n ≠ [] := by
  rw [fmt02]
  split
  · simp
  · exact natToChars_ne_nil n

theorem pythonInt_fmt02 (n : Nat) : pythonInt (fmt02 n) = some (n : Int) := by
  rw [pythonInt_digits (fmt02_ne_nil n) (fmt02_digits n)]
  rw [fmt02]
  split
  · rw [charsToNat_cons_zero, charsToNat_natToChars]
  · rw [charsToNat_natToChars]

/-! ## The formatting / parsing round trip (claim C3) -/

theorem colon_not_in_fmt02 (n : Nat) : ':' ∉ fmt02 n := by
  intro hmem
  exact absurd rfl (digit_not_special (fmt02_digits n ':' hmem)).1

theorem parse_two_fields (a b : Nat) :
    parse_time (fmt02 a ++ ':' :: fmt02 b) = some ((a * 60 + b : Nat) : Int) := by
  have hnospace : ∀ c ∈ fmt02 a ++ ':' :: fmt02 b, isPySpace c = false := by
    intro c hc
    rcases List.mem_append.mp hc with h | h
    · exact (digit_not_special (fmt02_digits a c h)).2.2.2.2.2
    · rcases List.mem_cons.mp h with rfl | h
      · decide
      · exact (digit_not_special (fmt02_digits b c h)).2.2.2.2.2
  have hstrip := pyStrip_no_space hnospace
  have hne : ¬(fmt02 a ++ ':' :: fmt02 b = []) := by simp
  have hmem : ':' ∈ fmt02 a ++ ':' :: fmt02 b := by simp
  have hsplit : splitOnC ':' (fmt02 a ++ ':' :: fmt02 b) = [fmt02 a, fmt02 b] := by
    rw [splitOnC_append (colon_not_in_fmt02 a),
      splitOnC_no_sep (colon_not_in_fmt02 b)]
  rw [parse_time, hstrip, if_neg hne, if_pos hmem, hsplit]
  simp only [pythonInt_fmt02, Option.some.injEq]
  push_cast
  ring

theorem parse_three_fields (a b c : Nat) :
    parse_time (fmt02 a ++ ':' :: (fmt02 b ++ ':' :: fmt02 c)) =
      some ((a * 3600 + b * 60 + c : Nat) : Int) := by
  have hnospace : ∀ d ∈ fmt02 a ++ ':' :: (fmt02 b ++ ':' :: fmt02 c),
      isPySpace d = false := by
    intro d hd
    rcases List.mem_append.mp hd with h | h
    · exact (digit_not_special (fmt02_digits a d h)).2.2.2.2.2
    · rcases List.mem_cons.mp h with rfl | h
      · decide
      · rcases List.mem_append.mp h with h2 | h2
        · exact (digit_not_special (fmt02_digits b d h2)).2.2.2.2.2
        · rcases List.mem_cons.mp h2 with rfl | h2
          · decide
          · exact (digit_not_special (fmt02_digits c d h2)).2.2.2.2.2
  have hstrip := pyStrip_no_space hnospace
  have hne : ¬(fmt02 a ++ ':' :: (fmt02 b ++ ':' :: fmt02 c) = []) := by simp
  have hmem : ':' ∈ fmt02 a ++ ':' :: (fmt02 b ++ ':' :: fmt02 c) := by simp
  have hsplit : splitOnC ':' (fmt02 a ++ ':' :: (fmt02 b ++ ':' :: fmt02 c)) =
      [fmt02 a, fmt02 b, fmt02 c] := by
    rw [splitOnC_append (colon_not_in_fmt02 a),
      splitOnC_append (colon_not_in_fmt02 b),
      splitOnC_no_sep (colon_not_in_fmt02 c)]
  rw [parse_time, hstrip, if_neg hne, if_pos hmem, hsplit]
  simp only [pythonInt_fmt02, Option.some.injEq]
  push_cast
  ring

/-- Claim C3: for every integer `s >= 0`, parsing the string produced by
`format_duration` with `parse_time` yields `s` back — `format_duration`
renders zero-padded `HH:MM:SS` when `s >= 3600` (`s // 3600 > 0`) and
zero-padded `MM:SS` otherwise, and `parse_time` on that rendering returns
the original number of seconds. -/
theorem parse_time_format_duration (s : Nat) :
    parse_time (format_duration s) = some (s : Int) := by
  rw [format_duration]
  by_cases hh : s / 3600 > 0
  · rw [if_pos hh, parse_three_fields]
    congr 1
    have : s / 3600 * 3600 + s % 3600 / 60 * 60 + s % 60 = s := by omega
    rw [this]
  · rw [if_neg hh, parse_two_fields]
    congr 1
    have : s % 3600 / 60 * 60 + s % 60 = s := by omega
    rw [this]

/-! ## Claims C4 and C5: behaviour of `parse_time` by colon count -/

theorem pythonInt_pyStrip (s : PyStr) : pythonInt (pyStrip s) = pythonInt s := by
  rw [pythonInt, pythonInt, pyStrip_idem]

/-- Claim C4 fails on the code: `int()` accepts a sign, so the colon-free
input `"-90"` parses to the negative value `-90` instead of `none`. -/
theorem parse_time_neg_counterexample : parse_time (pys "-90") = some (-90) := by
  decide

/-- Claim C4 as amended: colon-free input is parsed with Python's
`int()` semantics — an optionally signed decimal literal, `none` for
anything else — so the result is non-negative whenever the input carries
no minus sign, but an input with a leading `'-'` can parse to a negative
number. -/
theorem parse_time_no_colon (s : PyStr) (h : ':' ∉ s) :
    parse_time s = pythonInt s ∧
      (∀ v, '-' ∉ s → pythonInt s = some v → 0 ≤ v) := by
  constructor
  · rw [parse_time]
    by_cases he : pyStrip s = []
    · rw [if_pos he, pythonInt, he]
      rfl
    · have hnc : ':' ∉ pyStrip s := fun hm => h (mem_pyStrip hm)
      rw [if_neg he, if_neg hnc, pythonInt_pyStrip]
  · intro v hminus hv
    rw [pythonInt] at hv
    cases hps : pyStrip s with
    | nil =>
      rw [hps] at hv
      exact absurd hv (by simp [pyIntSigned])
    | cons c rest =>
      rw [hps, pyIntSigned] at hv
      have hcm : ¬c = '-' := by
        intro hc
        exact hminus (hc ▸ mem_pyStrip (hps ▸ List.mem_cons_self c rest))
      by_cases hp : c = '+'
      · rw [if_pos hp] at hv
        obtain ⟨n, _, rfl⟩ := Option.map_eq_some'.mp hv
        exact Int.natCast_nonneg n
      · rw [if_neg hp, if_neg hcm] at hv
        obtain ⟨n, _, rfl⟩ := Option.map_eq_some'.mp hv
        exact Int.natCast_nonneg n

/-- Witness for the amended C4 at concrete input `"90"`. -/
theorem parse_time_no_colon_witness :
    parse_time (pys "90") = some 90 ∧ (0 : Int) ≤ 90 := by
  have h := parse_time_no_colon (pys "90") (by decide)
  refine ⟨?_, ?_⟩
  · rw [h.1]
    decide
  · exact h.2 90 (by decide) (by decide)

/-- Claim C5: `parse_time` is total (the embedding returns a value on every
input, modelling that the Python code catches every `ValueError`), and:
empty/whitespace-only input gives `none`; with exactly one colon the two
parts go through `int()` and combine as `m*60 + s` (`none` if either part
fails); with exactly two colons the three parts combine as
`h*3600 + m*60 + s` (`none` if any part fails); three or more colons give
`none`. -/
theorem parse_time_cases (s : PyStr) :
    (pyStrip s = [] → parse_time s = none) ∧
    (∀ a b, splitOnC ':' (pyStrip s) = [a, b] →
      parse_time s =
        match pythonInt a, pythonInt b with
        | some m, some n => some (m * 60 + n)
        | _, _ => none) ∧
    (∀ a b c, splitOnC ':' (pyStrip s) = [a, b, c] →
      parse_time s =
        match pythonInt a, pythonInt b, pythonInt c with
        | some h, some m, some n => some (h * 3600 + m * 60 + n)
        | _, _, _ => none) ∧
    (3 ≤ s.count ':' → parse_time s = none) := by
  refine ⟨?_, ?_, ?_, ?_⟩
  · intro h
    rw [parse_time, if_pos h]
  · intro a b hs
    have hlen := splitOnC_length ':' (pyStrip s)
    rw [hs] at hlen
    have hcount : (pyStrip s).count ':' = 1 := by
      simp only [List.length_cons, List.length_nil] at hlen
      omega
    have hmem : ':' ∈ pyStrip s := List.count_pos_iff.mp (by omega)
    have hne : ¬pyStrip s = [] := by
      intro h
      rw [h] at hmem
      exact List.not_mem_nil _ hmem
    rw [parse_time, if_neg hne, if_pos hmem, hs]
  · intro a b c hs
    have hlen := splitOnC_length ':' (pyStrip s)
    rw [hs] at hlen
    have hcount : (pyStrip s).count ':' = 2 := by
      simp only [List.length_cons, List.length_nil] at hlen
      omega
    have hmem : ':' ∈ pyStrip s := List.count_pos_iff.mp (by omega)
    have hne : ¬pyStrip s = [] := by
      intro h
      rw [h] at hmem
      exact List.not_mem_nil _ hmem
    rw [parse_time, if_neg hne, if_pos hmem, hs]
  · intro h3
    have hc : 3 ≤ (pyStrip s).count ':' := by
      rw [count_pyStrip ':' s (by decide)]
      exact h3
    have hmem : ':' ∈ pyStrip s := List.count_pos_iff.mp (by omega)
    have hne : ¬pyStrip s = [] := by
      intro h
      rw [h] at hmem
      exact List.not_mem_nil _ hmem
    have hlen : 4 ≤ (splitOnC ':' (pyStrip s)).length := by
      rw [splitOnC_length]
      omega
    rw [parse_time, if_neg hne, if_pos hmem]
    rcases hl : splitOnC ':' (pyStrip s) with _ | ⟨a, _ | ⟨b, _ | ⟨c, _ | ⟨d, rest⟩⟩⟩⟩ <;>
        rw [hl] at hlen <;>
      first
      | rfl
      | (simp only [List.length_cons, List.length_nil] at hlen; omega)

/-- Witness for C5 at the concrete inputs `"1:30"` (one colon, integer
parts) and `"1:2:3:4"` (three colons). -/
theorem parse_time_cases_witness :
    parse_time (pys "1:30") = some 90 ∧ parse_time (pys "1:2:3:4") = none := by
  constructor
  · have h := (parse_time_cases (pys "1:30")).2.1 (pys "1") (pys "30") (by decide)
    rw [h]
    decide
  · exact (parse_time_cases (pys "1:2:3:4")).2.2.2 (by decide)

/-! ## Claims C6 and C10: trim validation -/

/-- Claim C6 fails on the code: with `start = 0` and `end = 0` both present
(both parsed to an integer number of seconds), `end <= start` and a known
positive total duration `600`, the validation chain reports no error at
all — the `end <= start` check is guarded by Python truthiness and a zero
start/end is falsy — instead of the claimed `EndNotAfterStart`. -/
theorem validate_trim_zero_counterexample :
    validate_trim (some 0) (some 0) 600 = none ∧
      ¬validate_trim (some 0) (some 0) 600 = some TrimError.EndNotAfterStart := by
  decide

/-- Claim C6 as amended: when start and end are both present and both
nonzero (truthy), the start is within the duration and `end <= start`,
validation rejects the pair with `EndNotAfterStart`; a present-but-zero
bound is treated as absent and escapes the check. -/
theorem validate_trim_end_not_after_start (sv ev dur : Int)
    (hs : sv ≠ 0) (he : ev ≠ 0) (hlt : sv < dur) (hle : ev ≤ sv) :
    validate_trim (some sv) (some ev) dur = some TrimError.EndNotAfterStart := by
  rw [validate_trim]
  rw [if_neg, if_neg, if_pos]
  · refine ⟨?_, ?_, ?_⟩
    · simp [pyTruthy, hs]
    · simp [pyTruthy, he]
    · simpa using hle
  · intro hcon
    have := hcon.2
    simp only [Option.getD_some] at this
    omega
  · intro hcon
    have := hcon.2
    simp only [Option.getD_some] at this
    omega

/-- Witness for the amended C6 at the spec's example
`validate(start=100, end=50, total=600)`. -/
theorem validate_trim_end_not_after_start_witness :
    validate_trim (some 100) (some 50) 600 = some TrimError.EndNotAfterStart :=
  validate_trim_end_not_after_start 100 50 600 (by decide) (by decide)
    (by decide) (by decide)

/-- Claim C10 fails on its cited `enhanced.py` scope: there a parsed end
of `0` is not treated as absent — `get_trim_settings` (line 93) fires the
`end <= start` check for `start = 100, end = 0` because only the start is
truthiness-guarded — and an accepted `(0, 0)` pair is returned as
`(None, None)` (line 116), which the `is not None` trigger does not treat
as a trim request. -/
theorem trim_zero_enhanced_counterexample :
    validate_trim_enhanced (some 100) (some 0) 600 =
      some TrimError.EndNotAfterStart ∧
    validate_trim_enhanced (some 0) (some 0) 600 = none ∧
    get_trim_settings_result (some 0) (some 0) = (none, none) ∧
    trim_requested none none = false := by
  decide

/-- Claim C10 as amended: in the streamlit validation chain a parsed bound
equal to `0` behaves exactly as an absent bound in every check (presence
is tested by truthiness); in both variants the preview duration
`(end or total) - (start or 0)` substitutes the full duration for an
explicit end of `0`; and in the streamlit entry point the pair
`start = 0, end = 0` passes validation yet is forwarded as a trim request
(`is not None` in `download_video`).  In `enhanced.py` only a zero start
is treated as absent (under a positive duration): a zero end with a
nonzero start is rejected by `end <= start`, and an accepted `(0, 0)` is
returned as `(None, None)`, not forwarded as a trim request. -/
theorem trim_zero_is_absent :
    (∀ e : Option Int, ∀ dur : Int,
      validate_trim (some 0) e dur = validate_trim none e dur) ∧
    (∀ s : Option Int, ∀ dur : Int,
      validate_trim s (some 0) dur = validate_trim s none dur) ∧
    (∀ s : Option Int, ∀ dur : Int,
      preview_duration s (some 0) dur = dur - pyOrI s 0) ∧
    validate_trim (some 0) (some 0) 600 = none ∧
    trim_requested (some 0) (some 0) = true ∧
    (∀ e : Option Int, ∀ dur : Int, 0 < dur →
      validate_trim_enhanced (some 0) e dur =
        validate_trim_enhanced none e dur) ∧
    get_trim_settings_result (some 0) (some 0) = (none, none) ∧
    trim_requested none none = false := by
  refine ⟨?_, ?_, ?_, by decide, by decide, ?_, by decide, by decide⟩
  · intro e dur
    rw [validate_trim, validate_trim]
    simp [pyTruthy]
  · intro s dur
    rw [validate_trim, validate_trim]
    simp [pyTruthy]
  · intro s dur
    rw [preview_duration, pyOrI]
    simp
  · intro e dur hdur
    cases e with
    | none =>
      rw [validate_trim_enhanced, validate_trim_enhanced]
      rw [if_neg (by omega)]
    | some ev =>
      rw [validate_trim_enhanced, validate_trim_enhanced]
      rw [if_neg (by omega)]
      by_cases hev : ev > dur
      · rw [if_pos hev, if_pos hev]
      · rw [if_neg hev, if_neg hev, if_neg]
        intro hcon
        have := hcon.1
        simp [pyTruthy] at this

/-- Witness for the amended C10 at a concrete positive duration. -/
theorem trim_zero_is_absent_witness :
    validate_trim_enhanced (some 0) (some 50) 600 =
      validate_trim_enhanced none (some 50) 600 :=
  trim_zero_is_absent.2.2.2.2.2.1 (some 50) 600 (by decide)

/-! ## Claim C9: filename sanitization -/

/-- Claim C9: the filename component derived from a title keeps only
alphanumeric characters, spaces, hyphens and underscores, is truncated to
at most 50 characters, and the rule is the same function in all three
entry points. -/
theorem sanitize_title_spec (t : PyStr) :
    sanitize_title_enhanced t = sanitize_title_streamlit t ∧
    sanitize_title_enhanced t = sanitize_title_basic t ∧
    (sanitize_title_enhanced t).length ≤ 50 ∧
    ∀ c ∈ sanitize_title_enhanced t, keepChar c = true := by
  refine ⟨rfl, rfl, ?_, ?_⟩
  · rw [sanitize_title_enhanced]
    exact List.length_take_le 50 _
  · intro c hc
    rw [sanitize_title_enhanced] at hc
    have h1 : c ∈ pyRstrip ((t.filter keepChar)) := List.mem_of_mem_take hc
    rw [pyRstrip, List.mem_reverse] at h1
    have h2 := mem_of_dropWhile h1
    rw [List.mem_reverse] at h2
    exact List.of_mem_filter h2

/-! ## Lemmas: the stable descending sort -/

theorem mem_pyInsert (lt : α → α → Bool) (x z : α) (l : List α) :
    z ∈ pyInsert lt x l ↔ z = x ∨ z ∈ l := by
  induction l with
  | nil => simp [pyInsert]
  | cons y ys ih =>
    rw [pyInsert]
    split
    · simp only [List.mem_cons, ih]
      tauto
    · simp [List.mem_cons]

theorem pyInsert_perm (lt : α → α → Bool) (x : α) (l : List α) :
    (pyInsert lt x l).Perm (x :: l) := by
  induction l with
  | nil => exact List.Perm.refl _
  | cons y ys ih =>
    rw [pyInsert]
    split
    · exact (ih.cons y).trans (List.Perm.swap x y ys)
    · exact List.Perm.refl _

theorem pySort_perm (lt : α → α → Bool) (l : List α) :
    (pySort lt l).Perm l := by
  induction l with
  | nil => exact List.Perm.refl _
  | cons x xs ih =>
    exact (pyInsert_perm lt x (pySort lt xs)).trans (ih.cons x)

theorem pyInsert_pairwise (lt : α → α → Bool)
    (hasym : ∀ a b, lt a b = true → lt b a = false)
    (htrans : ∀ a b c, lt a b = false → lt b c = false → lt a c = false)
    (x : α) (l : List α) (hl : l.Pairwise (fun a b => lt a b = false)) :
    (pyInsert lt x l).Pairwise (fun a b => lt a b = false) := by
  induction l with
  | nil => simp [pyInsert]
  | cons y ys ih =>
    obtain ⟨hy, hys⟩ := List.pairwise_cons.mp hl
    rw [pyInsert]
    split
    · rename_i hxy
      rw [List.pairwise_cons]
      refine ⟨?_, ih hys⟩
      intro z hz
      rcases (mem_pyInsert lt x z ys).mp hz with rfl | hz'
      · exact hasym _ _ hxy
      · exact hy z hz'
    · rename_i hxy
      have hxy' : lt x y = false := by
        rcases hb : lt x y with _ | _
        · rfl
        · exact absurd hb hxy
      rw [List.pairwise_cons]
      refine ⟨?_, hl⟩
      intro z hz
      rcases List.mem_cons.mp hz with rfl | hz'
      · exact hxy'
      · exact htrans x y z hxy' (hy z hz')

theorem pySort_pairwise (lt : α → α → Bool)
    (hasym : ∀ a b, lt a b = true → lt b a = false)
    (htrans : ∀ a b c, lt a b = false → lt b c = false → lt a c = false)
    (l : List α) :
    (pySort lt l).Pairwise (fun a b => lt a b = false) := by
  induction l with
  | nil => simp [pySort]
  | cons x xs ih => exact pyInsert_pairwise lt hasym htrans x _ ih

theorem ltS_true_iff (a b : CatalogEntryS) :
    ltS a b = true ↔
      (a.height < b.height ∨
        (a.height = b.height ∧
          (orZero a.tbr < orZero b.tbr ∨
            (orZero a.tbr = orZero b.tbr ∧ orZero a.vbr < orZero b.vbr)))) := by
  simp [ltS]

theorem ltS_asym (a b : CatalogEntryS) (h : ltS a b = true) :
    ltS b a = false := by
  rcases hb : ltS b a with _ | _
  · rfl
  · exfalso
    rw [ltS_true_iff] at h hb
    omega

theorem ltS_negtrans (a b c : CatalogEntryS) (h1 : ltS a b = false)
    (h2 : ltS b c = false) : ltS a c = false := by
  rcases hc : ltS a c with _ | _
  · rfl
  · exfalso
    have h1' : ¬ltS a b = true := by simp [h1]
    have h2' : ¬ltS b c = true := by simp [h2]
    rw [ltS_true_iff] at h1' h2' hc
    omega

theorem ltE_asym (a b : CatalogEntryE) (h : ltE a b = true) :
    ltE b a = false := by
  simp only [ltE, decide_eq_true_eq] at h
  simp only [ltE, decide_eq_false_iff_not]
  omega

theorem ltE_negtrans (a b c : CatalogEntryE) (h1 : ltE a b = false)
    (h2 : ltE b c = false) : ltE a c = false := by
  simp only [ltE, decide_eq_false_iff_not] at h1 h2 ⊢
  omega

theorem ltS_false_height (a b : CatalogEntryS) (h : ltS a b = false) :
    b.height ≤ a.height := by
  have h' : ¬ltS a b = true := by simp [h]
  rw [ltS_true_iff] at h'
  omega

theorem ltE_false_height (a b : CatalogEntryE) (h : ltE a b = false) :
    b.height ≤ a.height := by
  simp only [ltE, decide_eq_false_iff_not] at h
  omega

theorem resLabel_inj {h1 h2 : Nat} (h : resLabel h1 = resLabel h2) :
    h1 = h2 := by
  have hd := congrArg List.dropLast h
  rw [resLabel, resLabel, List.dropLast_concat, List.dropLast_concat] at hd
  have hv := congrArg charsToNat hd
  rwa [charsToNat_natToChars, charsToNat_natToChars] at hv

/-! ## Lemmas: the catalog admission loop -/

theorem collectS_mem {fs : List StreamDescriptor} {seen : List Nat}
    {e : CatalogEntryS} (he : e ∈ collectS fs seen) :
    e.height ∉ seen ∧ e.height ≠ 0 ∧
      ∃ f, f ∈ fs ∧ eligS f = true ∧ f.height = some e.height ∧
        e = mkEntryS f e.height := by
  induction fs generalizing seen with
  | nil => simp [collectS] at he
  | cons f rest ih =>
    rw [collectS] at he
    split at he
    · rename_i helig
      split at he
      · rename_i h hsome
        split at he
        · rename_i hcond
          rcases List.mem_cons.mp he with rfl | he'
          · exact ⟨hcond.2, hcond.1, f, by simp, helig, hsome, rfl⟩
          · obtain ⟨hseen, h0, f', hf', helig', hsome', hmk⟩ := ih he'
            refine ⟨fun hm => hseen (List.mem_cons_of_mem _ hm), h0,
              f', List.mem_cons_of_mem _ hf', helig', hsome', hmk⟩
        · obtain ⟨hseen, h0, f', hf', helig', hsome', hmk⟩ := ih he
          exact ⟨hseen, h0, f', List.mem_cons_of_mem _ hf', helig', hsome', hmk⟩
      · obtain ⟨hseen, h0, f', hf', helig', hsome', hmk⟩ := ih he
        exact ⟨hseen, h0, f', List.mem_cons_of_mem _ hf', helig', hsome', hmk⟩
    · obtain ⟨hseen, h0, f', hf', helig', hsome', hmk⟩ := ih he
      exact ⟨hseen, h0, f', List.mem_cons_of_mem _ hf', helig', hsome', hmk⟩

theorem collectE_mem {fs : List StreamDescriptor} {seen : List Nat}
    {e : CatalogEntryE} (he : e ∈ collectE fs seen) :
    e.height ∉ seen ∧ e.height ≠ 0 ∧
      ∃ f, f ∈ fs ∧ eligE f = true ∧ f.height = some e.height ∧
        e = mkEntryE f e.height := by
  induction fs generalizing seen with
  | nil => simp [collectE] at he
  | cons f rest ih =>
    rw [collectE] at he
    split at he
    · rename_i helig
      split at he
      · rename_i h hsome
        split at he
        · rename_i hcond
          rcases List.mem_cons.mp he with rfl | he'
          · exact ⟨hcond.2, hcond.1, f, by simp, helig, hsome, rfl⟩
          · obtain ⟨hseen, h0, f', hf', helig', hsome', hmk⟩ := ih he'
            refine ⟨fun hm => hseen (List.mem_cons_of_mem _ hm), h0,
              f', List.mem_cons_of_mem _ hf', helig', hsome', hmk⟩
        · obtain ⟨hseen, h0, f', hf', helig', hsome', hmk⟩ := ih he
          exact ⟨hseen, h0, f', List.mem_cons_of_mem _ hf', helig', hsome', hmk⟩
      · obtain ⟨hseen, h0, f', hf', helig', hsome', hmk⟩ := ih he
        exact ⟨hseen, h0, f', List.mem_cons_of_mem _ hf', helig', hsome', hmk⟩
    · obtain ⟨hseen, h0, f', hf', helig', hsome', hmk⟩ := ih he
      exact ⟨hseen, h0, f', List.mem_cons_of_mem _ hf', helig', hsome', hmk⟩

theorem collectS_pairwise (fs : List StreamDescriptor) (seen : List Nat) :
    (collectS fs seen).Pairwise (fun a b => a.height ≠ b.height) := by
  induction fs generalizing seen with
  | nil => simp [collectS]
  | cons f rest ih =>
    rw [collectS]
    split
    · split
      · split
        · rw [List.pairwise_cons]
          refine ⟨?_, ih _⟩
          intro e he'
          have hni := (collectS_mem he').1
          intro hEq
          exact hni (hEq ▸ List.mem_cons_self _ _)
        · exact ih _
      · exact ih _
    · exact ih _

theorem collectE_pairwise (fs : List StreamDescriptor) (seen : List Nat) :
    (collectE fs seen).Pairwise (fun a b => a.height ≠ b.height) := by
  induction fs generalizing seen with
  | nil => simp [collectE]
  | cons f rest ih =>
    rw [collectE]
    split
    · split
      · split
        · rw [List.pairwise_cons]
          refine ⟨?_, ih _⟩
          intro e he'
          have hni := (collectE_mem he').1
          intro hEq
          exact hni (hEq ▸ List.mem_cons_self _ _)
        · exact ih _
      · exact ih _
    · exact ih _

theorem collectS_first {fs : List StreamDescriptor} {seen : List Nat}
    {h : Nat} {f : StreamDescriptor} (hns : h ∉ seen) (h0 : h ≠ 0)
    (hfind : fs.find? (fun g => eligS g && g.height == some h) = some f) :
    mkEntryS f h ∈ collectS fs seen ∧
      ∀ e ∈ collectS fs seen, e.height = h → e = mkEntryS f h := by
  induction fs generalizing seen with
  | nil => simp at hfind
  | cons g rest ih =>
    by_cases hp : (eligS g && g.height == some h) = true
    · rw [@List.find?_cons_of_pos _ (fun g => eligS g && g.height == some h)
        g rest hp] at hfind
      have hgf : g = f := by injection hfind
      subst hgf
      obtain ⟨helig, hheight⟩ : eligS g = true ∧ g.height = some h := by
        simpa using hp
      rw [collectS, helig, hheight]
      rw [if_pos rfl]
      simp only []
      rw [if_pos ⟨h0, hns⟩]
      constructor
      · exact List.mem_cons_self _ _
      · intro e he' hEq
        rcases List.mem_cons.mp he' with rfl | he''
        · rfl
        · exfalso
          have hni := (collectS_mem he'').1
          exact hni (hEq ▸ List.mem_cons_self _ _)
    · rw [@List.find?_cons_of_neg _ (fun g => eligS g && g.height == some h)
        g rest hp] at hfind
      have hp' : (eligS g && g.height == some h) = false := by
        simpa using hp
      rw [collectS]
      split
      · rename_i helig
        split
        · rename_i h' hsome
          split
          · rename_i hcond
            have hne : h' ≠ h := by
              intro hEq
              subst hEq
              rw [Bool.and_eq_false_iff] at hp'
              rcases hp' with hc | hc
              · rw [helig] at hc
                exact Bool.noConfusion hc
              · rw [hsome] at hc
                simp at hc
            have ihh := @ih (h' :: seen)
              (by
                intro hm
                rcases List.mem_cons.mp hm with hEq | hm'
                · exact hne hEq.symm
                · exact hns hm')
              hfind
            constructor
            · exact List.mem_cons_of_mem _ ihh.1
            · intro e he' hEq
              rcases List.mem_cons.mp he' with rfl | he''
              · exact absurd hEq hne
              · exact ihh.2 e he'' hEq
          · exact ih hns hfind
        · exact ih hns hfind
      · exact ih hns hfind

/-! ## Claims C1, C2 and C7: the format catalog -/

theorem buildS_entry_shape {fs : List StreamDescriptor} {e : CatalogEntryS}
    (he : e ∈ buildS fs) :
    e.resolution = resLabel e.height ∧
      ∃ f, f ∈ fs ∧ eligS f = true ∧ f.height = some e.height ∧
        e = mkEntryS f e.height := by
  have he' : e ∈ collectS fs [] :=
    ((pySort_perm ltS (collectS fs [])).mem_iff).mp he
  obtain ⟨_, _, f, hf, helig, hsome, hmk⟩ := collectS_mem he'
  refine ⟨?_, f, hf, helig, hsome, hmk⟩
  rw [hmk]
  rfl

theorem buildE_entry_shape {fs : List StreamDescriptor} {e : CatalogEntryE}
    (he : e ∈ buildE fs) :
    e.resolution = resLabel e.height ∧
      ∃ f, f ∈ fs ∧ eligE f = true ∧ f.height = some e.height ∧
        e = mkEntryE f e.height := by
  have he' : e ∈ collectE fs [] :=
    ((pySort_perm ltE (collectE fs [])).mem_iff).mp he
  obtain ⟨_, _, f, hf, helig, hsome, hmk⟩ := collectE_mem he'
  refine ⟨?_, f, hf, helig, hsome, hmk⟩
  rw [hmk]
  rfl

/-- Claim C7: in both variants of `get_available_formats` the returned
catalog is ordered descending by height, has at most one entry per
distinct height, and hence never two entries with the same resolution
label, for every input including inputs with duplicate heights. -/
theorem catalog_dedup_sorted (fs : List StreamDescriptor) :
    ((buildS fs).Pairwise (fun a b => b.height ≤ a.height) ∧
      (buildS fs).Pairwise (fun a b => a.height ≠ b.height) ∧
      (buildS fs).Pairwise (fun a b => a.resolution ≠ b.resolution)) ∧
    ((buildE fs).Pairwise (fun a b => b.height ≤ a.height) ∧
      (buildE fs).Pairwise (fun a b => a.height ≠ b.height) ∧
      (buildE fs).Pairwise (fun a b => a.resolution ≠ b.resolution)) := by
  have hS : (buildS fs).Pairwise (fun a b => a.height ≠ b.height) :=
    ((pySort_perm ltS (collectS fs [])).pairwise_iff
      (fun hab => Ne.symm hab)).mpr (collectS_pairwise fs [])
  have hE : (buildE fs).Pairwise (fun a b => a.height ≠ b.height) :=
    ((pySort_perm ltE (collectE fs [])).pairwise_iff
      (fun hab => Ne.symm hab)).mpr (collectE_pairwise fs [])
  refine ⟨⟨?_, hS, ?_⟩, ?_, hE, ?_⟩
  · exact (pySort_pairwise ltS ltS_asym ltS_negtrans _).imp
      (fun hab => ltS_false_height _ _ hab)
  · refine hS.imp_of_mem ?_
    intro a b ha hb hne hres
    have sa := (buildS_entry_shape ha).1
    have sb := (buildS_entry_shape hb).1
    rw [sa, sb] at hres
    exact hne (resLabel_inj hres)
  · exact (pySort_pairwise ltE ltE_asym ltE_negtrans _).imp
      (fun hab => ltE_false_height _ _ hab)
  · refine hE.imp_of_mem ?_
    intro a b ha hb hne hres
    have sa := (buildE_entry_shape ha).1
    have sb := (buildE_entry_shape hb).1
    rw [sa, sb] at hres
    exact hne (resLabel_inj hres)

/-- Claim C1 fails on the code: with the audio-less higher-bitrate 1080p
descriptor first and the audio-bearing one second, the surviving 1080p
entry is the audio-less first-seen one, not the audio-bearing one; the
surviving entry flips when the input order flips. -/
theorem catalog_tiebreak_counterexample :
    (buildS [dVideoOnly1080, dCombined1080]).map
      (fun e => (e.format_id, e.has_audio)) = [(pys "f1", false)] ∧
    (buildS [dCombined1080, dVideoOnly1080]).map
      (fun e => (e.format_id, e.has_audio)) = [(pys "f2", true)] := by
  decide

/-- Claim C1 as amended: `get_available_formats` de-duplicates by
first-seen-wins — the catalog entry for height `h` is built from the first
eligible descriptor of truthy height `h` in input order, regardless of
audio or bitrate (the audio/bitrate preference lives in
`create_download_options` / `get_format_from_selection`, which operate on
the already de-duplicated catalog). -/
theorem catalog_first_seen_wins (fs : List StreamDescriptor) (h : Nat)
    (f : StreamDescriptor) (h0 : h ≠ 0)
    (hfind : fs.find? (fun g => eligS g && g.height == some h) = some f) :
    mkEntryS f h ∈ buildS fs ∧
      ∀ e ∈ buildS fs, e.height = h → e = mkEntryS f h := by
  have hc := @collectS_first fs [] h f (by simp) h0 hfind
  constructor
  · exact ((pySort_perm ltS (collectS fs [])).mem_iff).mpr hc.1
  · intro e he hEq
    exact hc.2 e (((pySort_perm ltS (collectS fs [])).mem_iff).mp he) hEq

/-- Witness for the amended C1: on `[dVideoOnly1080, dCombined1080]` the
first-seen audio-less descriptor supplies the (unique) 1080p entry. -/
theorem catalog_first_seen_wins_witness :
    mkEntryS dVideoOnly1080 1080 ∈ buildS [dVideoOnly1080, dCombined1080] :=
  (catalog_first_seen_wins [dVideoOnly1080, dCombined1080] 1080 dVideoOnly1080
    (by decide) (by decide)).1

/-- Claim C2 fails on the code for the enhanced/basic variant: its filter
is `vcodec != 'none' and acodec != 'none'`, so a video-only descriptor
(usable video codec, audio codec `"none"`) is excluded, and a descriptor
with no video codec at all (`vcodec` absent) is admitted. -/
theorem catalog_filter_counterexample :
    buildE [dVideoOnly1080] = [] ∧
    (buildE [dNoVcodec720]).map (fun e => e.format_id) = [pys "f9"] := by
  decide

/-- Claim C2 as amended: only the streamlit variant implements the claimed
filter — every catalog entry arises from a descriptor declaring a present,
nonempty, non-`"none"` video codec, and no audio codec is required
(a video-only descriptor is eligible).  The enhanced/basic variant instead
also requires `acodec != 'none'`, excluding video-only descriptors, and
admits a descriptor whose `vcodec` is absent. -/
theorem catalog_filter_amended :
    (∀ (fs : List StreamDescriptor) (e : CatalogEntryS), e ∈ buildS fs →
      ∃ f v, f ∈ fs ∧ f.vcodec = some v ∧ v ≠ [] ∧ v ≠ pys "none") ∧
    (buildS [dVideoOnly1080]).map (fun e => e.format_id) = [pys "f1"] ∧
    buildE [dVideoOnly1080] = [] ∧
    (buildE [dNoVcodec720]).map (fun e => e.format_id) = [pys "f9"] := by
  refine ⟨?_, by decide, by decide, by decide⟩
  intro fs e he
  obtain ⟨_, f, hf, helig, _, _⟩ := buildS_entry_shape he
  rw [eligS] at helig
  rcases hv : f.vcodec with _ | v
  · rw [hv] at helig
    exact Bool.noConfusion helig
  · rw [hv] at helig
    simp only [Bool.and_eq_true, bne_iff_ne] at helig
    exact ⟨f, v, hf, hv, helig.1, helig.2⟩

/-- Witness for the amended C2 at the concrete one-descriptor input. -/
theorem catalog_filter_amended_witness :
    ∃ f v, f ∈ [dVideoOnly1080] ∧ f.vcodec = some v ∧ v ≠ [] ∧
      v ≠ pys "none" :=
  catalog_filter_amended.1 [dVideoOnly1080] (mkEntryS dVideoOnly1080 1080)
    (by decide)

/-! ## Claim C8: selection resolution fallback -/

/-- Claim C8: `get_format_from_selection` is total (the embedding returns a
selector on every input — the `try/except (ValueError, IndexError)` makes
the Python code raise-free for user-facing selections), and a
specific-resolution selection whose extracted height matches no catalog
entry resolves to the very same default best-quality expression `selBest`
that a Best Quality selection resolves to. -/
theorem resolver_fallback (sel : PyStr) (formats : List CatalogEntryS) :
    ((pys "🎯 Best Quality").isPrefixOf sel = true →
      get_format_from_selection sel formats = selBest) ∧
    ((pys "🎯 Best Quality").isPrefixOf sel = false →
      (pys "🎵 Audio Only").isPrefixOf sel = false →
      (∀ part t, findPTok (splitOnC ' ' sel) = some part →
        pythonInt part.dropLast = some t →
        ∀ f ∈ formats, ¬((f.height : Int) = t)) →
      get_format_from_selection sel formats = selBest) := by
  constructor
  · intro h
    rw [get_format_from_selection, if_pos h]
  · intro h1 h2 hno
    rw [get_format_from_selection, if_neg (by simp [h1]),
      if_neg (by simp [h2])]
    cases hfp : findPTok (splitOnC ' ' sel) with
    | none => rfl
    | some part =>
      cases hpi : pythonInt part.dropLast with
      | none => simp only [hpi]
      | some t =>
        have hfilter :
            formats.filter (fun f => ((f.height : Int) == t)) = [] := by
          rw [List.filter_eq_nil_iff]
          intro f hf
          simp only [beq_iff_eq]
          exact hno part t hfp hpi f hf
        simp only [hpi, hfilter]

/-- Witness for C8: resolving the `"4320p"`-labelled selection against a
catalog holding only a 1080p entry yields the best-quality fallback. -/
theorem resolver_fallback_witness :
    get_format_from_selection (pys "📹+🔊 4320p (mp4) - 125.5 MB")
      [mkEntryS dCombined1080 1080] = selBest := by
  refine (resolver_fallback _ _).2 (by decide) (by decide) ?_
  intro part t hpart hpi f hf
  have hp : findPTok (splitOnC ' ' (pys "📹+🔊 4320p (mp4) - 125.5 MB")) =
      some (pys "4320p") := by decide
  rw [hp] at hpart
  injection hpart with hpart'
  subst hpart'
  have ht : pythonInt (pys "4320p").dropLast = some 4320 := by decide
  rw [ht] at hpi
  injection hpi with hpi'
  subst hpi'
  rcases List.mem_singleton.mp hf with rfl
  decide

end YT
